import Mathlib

/-!
# Verification of the status-line telemetry tool

A shallow embedding of the Go status-line program (reverse transcript
reader, session-time tracker with debounced persistence, context-usage
analyzer, user-message extractor) together with proofs of the testable
properties stated in its specification.

Modelling conventions:
* File contents and message contents are `List Char` (the Go code slices
  byte strings; for the reader only the byte 0x0A matters and UTF-8 never
  embeds 0x0A in a multi-byte sequence, so char-level and byte-level
  splitting agree on valid UTF-8 input).
* Unix timestamps and token counts are `Int`/`Nat`.  JSON numbers decoded
  by encoding/json are float64; float64 represents the integer token
  counts appearing here exactly, so integer arithmetic is faithful.
* JSON decoding itself (encoding/json, an external library) is abstracted:
  a transcript line is either blank, malformed, or a decoded record whose
  optional fields mirror the type assertions performed by the Go code
  (a field that is absent *or of the wrong dynamic type* is `none`).
* Fallible I/O is handled at the call boundary: the reader model takes the
  file contents that were successfully opened; the session store models
  the state of the per-session file explicitly (missing / corrupt / valid).
-/

set_option autoImplicit false

namespace Statusline

/-! ## Configuration constants (Go `const` block) -/

def SessionTimeoutSeconds : Int := 600
def MaxContextTokens : Nat := 200000
def MaxUserMessageLines : Nat := 3
def UserMessageLineWidth : Nat := 60
def MaxTranscriptLines : Nat := 100
def MaxUserSearchLines : Nat := 200

/-- Go: `const sessionWriteDebounce = 2 * time.Second` (modelled in seconds). -/
def sessionWriteDebounce : Int := 2

/-- Go: `const chunkSize = 8192` inside `readLastLines`. -/
def chunkSize : Nat := 8192

/-! ## ANSI color constants used by the message formatter -/

def ColorReset : String := "\x1b[0m"
def ColorGreen : String := "\x1b[38;2;158;206;106m"
def ColorGray : String := "\x1b[38;2;86;95;137m"
def ColorPurple : String := "\x1b[38;2;187;154;247m"

/-! ## Reverse line reader (`readLastLines`)

The Go function reads 8192-byte chunks from the end of the file; inside a
chunk it scans backwards for newlines, extracting each nonempty segment
(the guard `i+1 < lineEnd` skips empty segments) and prepending it to the
accumulated lines, returning early once `maxLines` lines are collected.
Bytes before the first newline of a chunk are carried into the next
(earlier) chunk (Go variable `partial`, here named `carry`).  A leftover
carry when the file start is reached becomes the first line. -/

/-- The backward scan of one buffer (the inner `for i := len(buf)-1 ...`
loop).  `rbuf` is the buffer reversed (so the scan is structural), `seg`
holds the characters strictly after the current position and before the
previously found newline (Go: the slice `buf[i+1:lineEnd]`, built up one
character at a time).  `Sum.inl` is the early `return lines, nil` taken
once `maxLines` lines have been collected; `Sum.inr` returns the collected
lines and the carry (Go: `partial = buf[:lineEnd]`). -/
def scanRev : List Char → List Char → List (List Char) → Nat →
    Sum (List (List Char)) (List (List Char) × List Char)
  | [], seg, lines, _ => Sum.inr (lines, seg)
  | c :: rest, seg, lines, maxLines =>
    if c = '\n' then
      if seg.isEmpty then
        scanRev rest [] lines maxLines
      else if maxLines ≤ lines.length + 1 then Sum.inl (seg :: lines)
      else scanRev rest [] (seg :: lines) maxLines
    else scanRev rest (c :: seg) lines maxLines

/-- The code after the chunk loop: a leftover carry (the first line of the
file, which needs no preceding newline) is prepended when room remains. -/
def readFinalize (lines : List (List Char)) (carry : List Char)
    (maxLines : Nat) : List (List Char) :=
  if 0 < carry.length ∧ lines.length < maxLines then carry :: lines else lines

/-- The chunk loop (`for offset := fileSize; offset > 0 && len(lines) < maxLines`).
`fuel` makes the recursion structural; it is initialized to the file size,
which bounds the number of iterations because `offset` strictly decreases. -/
def readLoop (content : List Char) : Nat → Nat → List (List Char) →
    List Char → Nat → List (List Char)
  | 0, _, lines, carry, maxLines => readFinalize lines carry maxLines
  | fuel + 1, offset, lines, carry, maxLines =>
    if 0 < offset ∧ lines.length < maxLines then
      let readSize := min chunkSize offset
      let offset' := offset - readSize
      let buf := (content.drop offset').take readSize ++ carry
      match scanRev buf.reverse [] lines maxLines with
      | Sum.inl result => result
      | Sum.inr (lines', carry') =>
        readLoop content fuel offset' lines' carry' maxLines
    else readFinalize lines carry maxLines

/-- Go `readLastLines` on the contents of a successfully opened file. -/
def readLastLines (content : List Char) (maxLines : Nat) : List (List Char) :=
  if content.length = 0 then []
  else readLoop content content.length content.length [] [] maxLines

/-! ## Specification-side line functions -/

/-- Split a character list at every newline; always returns at least one
(possibly empty) segment, like Go `strings.Split(s, "\n")`. -/
def splitNL : List Char → List (List Char)
  | [] => [[]]
  | c :: cs =>
    if c = '\n' then [] :: splitNL cs
    else
      match splitNL cs with
      | s :: rest => (c :: s) :: rest
      | [] => [[c]]

/-- The nonempty newline-separated segments of a character list. -/
def neSegs (l : List Char) : List (List Char) :=
  (splitNL l).filter (fun s => !s.isEmpty)

/-- The last `n` elements of a list (all of them when it is shorter). -/
def tailN {α : Type} (n : Nat) (l : List α) : List α :=
  l.drop (l.length - n)

/-- Modelled from the spec claim wording: the newline-delimited lines of a
file, where a trailing newline does not open a final empty line but every
interior empty segment is a line.  Used only to state the original claim. -/
def claimFileLines (content : List Char) : List (List Char) :=
  if content.isEmpty then []
  else if content.getLast? = some '\n' then (splitNL content).dropLast
  else splitNL content

/-- Boolean "is not a newline" predicate for takeWhile/dropWhile. -/
def notNL (c : Char) : Bool := c != '\n'

/-- Characters before the first newline (the carry of a full scan). -/
def carryOf (l : List Char) : List Char := l.takeWhile notNL

/-- Characters strictly after the first newline ([] when there is none). -/
def afterNL (l : List Char) : List Char := (l.dropWhile notNL).tail

/-- The nonempty segments situated after the first newline. -/
def foundOf (l : List Char) : List (List Char) := neSegs (afterNL l)

/-! ## Session tracker (`updateSession`, `createNewSession`)

Timestamps are Unix seconds (`Int`).  Within one call the Go code takes
`time.Now()` a handful of times nanoseconds apart (`currentTime`, the
fresh entry's `lastWrite`, the debounce comparison); all are modelled by
the single parameter `now` — the sub-second differences are far below
both the 600 s timeout and the 2 s debounce window. -/

/-- Go `Interval` (`End *int64` is an optional close time). -/
structure Interval where
  start : Int
  endT : Option Int
deriving DecidableEq

/-- Go `Session`. -/
structure Session where
  id : String
  date : String
  start : Int
  lastHeartbeat : Int
  totalSeconds : Int
  intervals : List Interval
deriving DecidableEq

/-- Go `createNewSession`. -/
def createNewSession (sessionID date : String) (currentTime : Int) : Session :=
  { id := sessionID
    date := date
    start := currentTime
    lastHeartbeat := currentTime
    totalSeconds := 0
    intervals := [{ start := currentTime, endT := none }] }

/-- Duration contributed by one interval: Go adds `*End - Start` for
closed intervals and skips open ones. -/
def intervalSeconds (i : Interval) : Int :=
  match i.endT with
  | some e => e - i.start
  | none => 0

/-- The `total` recomputation loop of `updateSession`. -/
def computeTotal (l : List Interval) : Int := (l.map intervalSeconds).sum

/-- Go `session.Intervals[len(session.Intervals)-1].End = &currentTime`
guarded by `len(session.Intervals) > 0`. -/
def setLastEnd : List Interval → Int → List Interval
  | [], _ => []
  | [i], now => [{ i with endT := some now }]
  | i :: j :: rest, now => i :: setLastEnd (j :: rest) now

/-- The heartbeat section of `updateSession` (lines: gap computation,
interval extension or creation, total recomputation). -/
def heartbeat (s : Session) (now : Int) : Session :=
  let gap := now - s.lastHeartbeat
  let intervals :=
    if gap < SessionTimeoutSeconds then setLastEnd s.intervals now
    else s.intervals ++ [{ start := now, endT := some now }]
  { s with
    lastHeartbeat := now
    intervals := intervals
    totalSeconds := computeTotal intervals }

/-- The state of the per-session file on disk as `updateSession` finds it:
absent, present but not valid JSON, or a valid `Session` record. -/
inductive DiskFile where
  | missing
  | corrupt
  | valid (s : Session)
deriving DecidableEq

/-- Go `sessionCacheEntry` (`lastWrite` as a Unix-seconds timestamp). -/
structure CacheEntry where
  session : Session
  lastWrite : Int
  dirty : Bool
deriving DecidableEq

/-- Result of one `updateSession` call: the cache entry left behind and
the record handed to `writeSessionToDisk` (`none` when the debounce check
skipped the write). -/
structure UpdateResult where
  entry : CacheEntry
  written : Option Session
deriving DecidableEq

/-- Go `updateSession` for one session id: load the cache entry (falling
back to the disk file, then to a fresh session), apply the heartbeat,
mark dirty, and write to disk only if the debounce time has passed since
`entry.lastWrite`. -/
def updateSession (file : DiskFile) (cached : Option CacheEntry)
    (sessionID date : String) (now : Int) : UpdateResult :=
  let entry : CacheEntry :=
    match cached with
    | some e => e
    | none =>
      let session :=
        match file with
        | DiskFile.valid s => s
        | DiskFile.missing => createNewSession sessionID date now
        | DiskFile.corrupt => createNewSession sessionID date now
      { session := session, lastWrite := now, dirty := false }
  let s1 := heartbeat entry.session now
  if sessionWriteDebounce ≤ now - entry.lastWrite then
    { entry := { session := s1, lastWrite := now, dirty := false }
      written := some s1 }
  else
    { entry := { session := s1, lastWrite := entry.lastWrite, dirty := true }
      written := none }

/-- A session after the heartbeats at times `t0 :: ts`, where the first
call also created the session (Go creates and heartbeats with the same
`currentTime`, so the creation heartbeat has gap 0). -/
def trackSession (sessionID date : String) (t0 : Int) (ts : List Int) :
    Session :=
  ts.foldl heartbeat (heartbeat (createNewSession sessionID date t0) t0)

/-- The session states the tracker can hold in memory after at least one
update (and hence the only states it ever hands to `writeSessionToDisk`,
directly or after a lossless JSON round trip through disk). -/
inductive TrackedSession : Session → Prop
  | start (sessionID date : String) (t : Int) :
      TrackedSession (heartbeat (createNewSession sessionID date t) t)
  | hb {s : Session} (now : Int) :
      TrackedSession s → TrackedSession (heartbeat s now)

/-- All intervals of a session are closed. -/
def allClosed (s : Session) : Bool :=
  s.intervals.all (fun i => i.endT.isSome)

/-! ## Transcript records

One JSON line of the transcript, as seen through the dynamic type
assertions of the Go code.  A field is `none` if absent *or* of the wrong
dynamic type (a failed Go type assertion); `isSidechain.getD false`
matches the Go pattern of skipping only when the field is present, a
bool, and true.  Token counts decoded as float64 are modelled as `Int`
(exact for the integer counts involved). -/

structure UsageData where
  input_tokens : Option Int
  cache_read_input_tokens : Option Int
  cache_creation_input_tokens : Option Int
deriving DecidableEq

structure MessageData where
  role : Option String
  content : Option (List Char)
  usage : Option UsageData
deriving DecidableEq

structure RecordData where
  isSidechain : Option Bool
  sessionId : Option String
  rtype : Option String
  message : Option MessageData
deriving DecidableEq

/-- A transcript line: whitespace-only, unparsable JSON, or a record. -/
inductive TLine where
  | blank
  | malformed
  | record (r : RecordData)
deriving DecidableEq

/-! ## Context usage analyzer (`calculateContextUsage`, `analyzeContext`) -/

/-- The token sum of a usage object: absent or non-numeric sub-fields
contribute zero. -/
def sumUsage (u : UsageData) : Int :=
  u.input_tokens.getD 0 + u.cache_read_input_tokens.getD 0
    + u.cache_creation_input_tokens.getD 0

/-- The scanning loop of `calculateContextUsage`, over the window in
newest-first order (the Go loop runs `i := len(lines)-1; i >= 0; i--`). -/
def ctxScan : List TLine → Int
  | [] => 0
  | TLine.blank :: rest => ctxScan rest
  | TLine.malformed :: rest => ctxScan rest
  | TLine.record r :: rest =>
    if r.isSidechain.getD false then ctxScan rest
    else
      match r.message with
      | none => ctxScan rest
      | some m =>
        match m.usage with
        | none => ctxScan rest
        | some u => if 0 < sumUsage u then sumUsage u else ctxScan rest

/-- Go `calculateContextUsage`: read the last `MaxTranscriptLines` lines
of the transcript, scan them newest-to-oldest. -/
def calculateContextUsage (transcript : List TLine) : Int :=
  ctxScan (tailN MaxTranscriptLines transcript).reverse

/-- Modelled from the claim wording of C3: for the *first* remaining
record that contains a usage object, return its sum immediately, whatever
that sum is.  Stated only to compare with `ctxScan`. -/
def ctxScanClaim : List TLine → Int
  | [] => 0
  | TLine.blank :: rest => ctxScanClaim rest
  | TLine.malformed :: rest => ctxScanClaim rest
  | TLine.record r :: rest =>
    if r.isSidechain.getD false then ctxScanClaim rest
    else
      match r.message with
      | none => ctxScanClaim rest
      | some m =>
        match m.usage with
        | none => ctxScanClaim rest
        | some u => sumUsage u

/-- The claim-side context usage built on `ctxScanClaim`. -/
def calculateContextUsageClaim (transcript : List TLine) : Int :=
  ctxScanClaim (tailN MaxTranscriptLines transcript).reverse

/-- The token sum `ctxScan` would accept from one line, if any: the line
must be a record, not a side chain, and carry a usage object with a
positive sum. -/
def usableTotal : TLine → Option Int
  | TLine.record r =>
    if r.isSidechain.getD false then none
    else
      match r.message with
      | none => none
      | some m =>
        match m.usage with
        | none => none
        | some u => if 0 < sumUsage u then some (sumUsage u) else none
  | _ => none

/-- The percentage computation of `analyzeContext`:
`int(float64(contextLength) * 100.0 / float64(MaxContextTokens))` capped
at 100.  float64 is exact for `contextLength * 100` up to 2^53 and the
truncated quotient agrees with integer division throughout that range, so
Nat division is a faithful model. -/
def analyzePercentage (contextLength : Nat) : Nat :=
  let percentage := contextLength * 100 / MaxContextTokens
  if 100 < percentage then 100 else percentage

/-- Modelled from the claim wording of C8: round-to-nearest instead of
truncation.  Stated only to compare with `analyzePercentage`. -/
def analyzePercentageClaim (contextLength : Nat) : Int :=
  min 100 (round ((contextLength : ℚ) * 100 / (MaxContextTokens : ℚ)))

/-! ## User message extractor (`extractUserMessage`, `isSystemMessage`,
`formatUserMessage`, `extractCommandName`) -/

/-- Go `strings.TrimSpace` (Unicode whitespace from both ends). -/
def trimSpace (l : List Char) : List Char :=
  ((l.dropWhile Char.isWhitespace).reverse.dropWhile Char.isWhitespace).reverse

/-- Go `strings.Index(s, pat)`: first occurrence index, `none` for -1. -/
def strIndex : List Char → List Char → Option Nat
  | [], pat => if pat.isPrefixOf ([] : List Char) then some 0 else none
  | c :: rest, pat =>
    if pat.isPrefixOf (c :: rest) then some 0
    else (strIndex rest pat).map (· + 1)

def cmdOpenTag : List Char := "<command-name>".toList

def cmdCloseTag : List Char := "</command-name>".toList

/-- Go `extractCommandName`: the trimmed text between the first
command-name open tag and the following close tag. -/
def extractCommandName (content : List Char) : List Char :=
  match strIndex content cmdOpenTag with
  | none => []
  | some i =>
    match strIndex (content.drop (i + cmdOpenTag.length)) cmdCloseTag with
    | none => []
    | some e => trimSpace ((content.drop (i + cmdOpenTag.length)).take e)

/-- The fixed tool-output tags filtered by `isSystemMessage`. -/
def xmlTags : List (List Char) :=
  ["<local-command-stdout>".toList, "<bash-stdout>".toList,
   "<bash-stderr>".toList, "<bash-input>".toList]

/-- Go `strings.Contains(s, sub)`, i.e. `strings.Index(s, sub) >= 0`. -/
def containsSub (s sub : List Char) : Bool := (strIndex s sub).isSome

/-- Go `isSystemMessage`: JSON array/object payloads, tool-output tags,
and caveat notices. -/
def isSystemMessage (content : List Char) : Bool :=
  (['['].isPrefixOf content && [']'].isSuffixOf content)
  || (['\x7b'].isPrefixOf content && ['\x7d'].isSuffixOf content)
  || xmlTags.any (fun tag => containsSub content tag)
  || "Caveat:".toList.isPrefixOf content

/-- One rendered line of a plain user message (trim, truncate to the
configured width with an ellipsis, add colors and the prompt sigil). -/
def formatLine (promptColor : String) (line : List Char) : String :=
  let l := trimSpace line
  let l :=
    if UserMessageLineWidth < l.length then
      l.take (UserMessageLineWidth - 3) ++ ['.', '.', '.']
    else l
  ColorReset ++ promptColor ++ "❯ " ++ String.mk l ++ ColorReset

/-- Go `formatUserMessage`. -/
def formatUserMessage (message : List Char) : String :=
  if message.isEmpty then ""
  else if !(extractCommandName message).isEmpty then
    ColorReset ++ ColorPurple ++ "❯ "
      ++ String.mk (extractCommandName message) ++ ColorReset ++ "\n"
  else
    let lines := splitNL message
    let isCommand :=
      match lines with
      | first :: _ => ['/'].isPrefixOf (trimSpace first)
      | [] => false
    let promptColor := if isCommand then ColorPurple else ColorGreen
    let shown := (lines.take MaxUserMessageLines).map (formatLine promptColor)
    let result :=
      if MaxUserMessageLines < lines.length then
        shown ++ [promptColor ++ "❯ " ++ ColorGray ++ "... ("
          ++ toString (lines.length - MaxUserMessageLines)
          ++ " more lines)" ++ ColorReset]
      else shown
    if result.isEmpty then ""
    else String.intercalate "\n" result ++ "\n"

/-- The scanning loop of `extractUserMessage`, over the window in
newest-first order.  Every rejected candidate (side chain, other session,
wrong role/type, non-string content, system message) makes the loop
continue to the next older line. -/
def userScan (sessionID : String) : List TLine → String
  | [] => ""
  | TLine.blank :: rest => userScan sessionID rest
  | TLine.malformed :: rest => userScan sessionID rest
  | TLine.record r :: rest =>
    if r.isSidechain.getD false = false ∧ r.sessionId = some sessionID then
      match r.message with
      | some m =>
        if m.role.getD "" = "user" ∧ r.rtype.getD "" = "user" then
          match m.content with
          | some content =>
            if isSystemMessage content then userScan sessionID rest
            else formatUserMessage content
          | none => userScan sessionID rest
        else userScan sessionID rest
      | none => userScan sessionID rest
    else userScan sessionID rest

/-- Go `extractUserMessage`: read the last `MaxUserSearchLines` transcript
lines and scan newest-to-oldest. -/
def extractUserMessage (transcript : List TLine) (sessionID : String) :
    String :=
  userScan sessionID (tailN MaxUserSearchLines transcript).reverse

/-- The content `userScan` would accept from one line, if any. -/
def userCandidate (sessionID : String) : TLine → Option (List Char)
  | TLine.record r =>
    if r.isSidechain.getD false = false ∧ r.sessionId = some sessionID then
      match r.message with
      | some m =>
        if m.role.getD "" = "user" ∧ r.rtype.getD "" = "user" then
          match m.content with
          | some content =>
            if isSystemMessage content then none else some content
          | none => none
        else none
      | none => none
    else none
  | _ => none

/-! ## Concrete transcript records for the analyzer counterexample -/

/-- A newer record whose usage object sums to zero (all sub-fields
absent). -/
def ctxDemoNew : TLine :=
  TLine.record
    { isSidechain := none, sessionId := none, rtype := none,
      message := some
        { role := none, content := none,
          usage := some
            { input_tokens := none, cache_read_input_tokens := none,
              cache_creation_input_tokens := none } } }

/-- An older record with `input_tokens = 100`. -/
def ctxDemoOld : TLine :=
  TLine.record
    { isSidechain := none, sessionId := none, rtype := none,
      message := some
        { role := none, content := none,
          usage := some
            { input_tokens := some 100, cache_read_input_tokens := none,
              cache_creation_input_tokens := none } } }


/-! ### Lemmas about `splitNL` -/

theorem splitNL_ne_nil (l : List Char) : splitNL l ≠ [] := by
  cases l with
  | nil => simp [splitNL]
  | cons c cs =>
    simp only [splitNL]
    split
    · simp
    · split <;> simp

theorem splitNL_cons_nl (cs : List Char) :
    splitNL ('\n' :: cs) = [] :: splitNL cs := by
  simp [splitNL]

theorem splitNL_cons_ne {c : Char} (h : c ≠ '\n') (cs : List Char) :
    ∃ s rest, splitNL cs = s :: rest ∧ splitNL (c :: cs) = (c :: s) :: rest := by
  cases hs : splitNL cs with
  | nil => exact absurd hs (splitNL_ne_nil cs)
  | cons s rest =>
    refine ⟨s, rest, rfl, ?_⟩
    simp [splitNL, h, hs]

theorem splitNL_append_nl (A B : List Char) :
    splitNL (A ++ '\n' :: B) = splitNL A ++ splitNL B := by
  induction A with
  | nil => simp [splitNL_cons_nl, splitNL]
  | cons a A ih =>
    by_cases ha : a = '\n'
    · subst ha
      simp only [List.cons_append, splitNL_cons_nl, ih, List.append_assoc]
    · obtain ⟨s, rest, hs, hcons⟩ := splitNL_cons_ne ha (A ++ '\n' :: B)
      obtain ⟨s₀, rest₀, hs₀, hcons₀⟩ := splitNL_cons_ne ha A
      rw [List.cons_append, hcons]
      rw [hs₀] at ih
      rw [ih] at hs
      rw [List.cons_append] at hs
      injection hs with h1 h2
      rw [hcons₀, h1]
      simp [h2]

theorem splitNL_no_nl {l : List Char} (h : '\n' ∉ l) : splitNL l = [l] := by
  induction l with
  | nil => rfl
  | cons c cs ih =>
    have hc : c ≠ '\n' := fun hc => h (hc ▸ List.mem_cons_self c cs)
    have hcs : '\n' ∉ cs := fun hm => h (List.mem_cons_of_mem c hm)
    obtain ⟨s, rest, hs, hcons⟩ := splitNL_cons_ne hc cs
    rw [ih hcs] at hs
    injection hs with h1 h2
    rw [hcons, h1, h2]

theorem neSegs_append_nl (A B : List Char) :
    neSegs (A ++ '\n' :: B) = neSegs A ++ neSegs B := by
  simp [neSegs, splitNL_append_nl, List.filter_append]

theorem neSegs_no_nl {l : List Char} (h : '\n' ∉ l) :
    neSegs l = if l.isEmpty then [] else [l] := by
  cases l with
  | nil => simp [neSegs, splitNL]
  | cons c cs => simp [neSegs, splitNL_no_nl h]

theorem neSegs_nil : neSegs [] = [] := by simp [neSegs, splitNL]

/-! ### Lemmas about `carryOf`, `afterNL`, `foundOf` -/

theorem notNL_eq_false {c : Char} : notNL c = false ↔ c = '\n' := by
  simp [notNL]

theorem notNL_eq_true {c : Char} : notNL c = true ↔ c ≠ '\n' := by
  simp [notNL]

theorem carryOf_no_nl (l : List Char) : '\n' ∉ carryOf l := by
  intro hm
  have := List.mem_takeWhile_imp hm
  simp [notNL] at this

theorem carryOf_of_no_nl {l : List Char} (h : '\n' ∉ l) : carryOf l = l := by
  apply List.takeWhile_eq_self_iff.mpr
  intro c hc
  exact notNL_eq_true.mpr (fun hcn => h (hcn ▸ hc))

theorem afterNL_of_no_nl {l : List Char} (h : '\n' ∉ l) : afterNL l = [] := by
  have : l.dropWhile notNL = [] := by
    apply List.dropWhile_eq_nil_iff.mpr
    intro c hc
    exact notNL_eq_true.mpr (fun hcn => h (hcn ▸ hc))
  simp [afterNL, this]

theorem carryOf_append_nl (A B : List Char) :
    carryOf (A ++ '\n' :: B) = carryOf A := by
  induction A with
  | nil => simp [carryOf, List.takeWhile, notNL]
  | cons a A ih =>
    by_cases ha : a = '\n'
    · subst ha
      simp [carryOf, List.takeWhile, notNL]
    · simp only [carryOf, List.cons_append, List.takeWhile_cons,
        notNL_eq_true.mpr ha] at *
      simp [ih]

theorem afterNL_append_nl (A B : List Char) :
    afterNL (A ++ '\n' :: B) =
      if '\n' ∈ A then afterNL A ++ '\n' :: B else B := by
  induction A with
  | nil => simp [afterNL, List.dropWhile, notNL]
  | cons a A ih =>
    by_cases ha : a = '\n'
    · subst ha
      simp [afterNL, List.dropWhile, notNL]
    · have ha' : ¬('\n' = a) := fun h => ha h.symm
      simp only [afterNL, List.cons_append, List.dropWhile_cons,
        notNL_eq_true.mpr ha, if_true] at *
      rw [ih]
      simp [ha']

theorem foundOf_append_nl (A B : List Char) :
    foundOf (A ++ '\n' :: B) = foundOf A ++ neSegs B := by
  rw [foundOf, afterNL_append_nl]
  by_cases hA : '\n' ∈ A
  · simp only [hA, if_true]
    rw [neSegs_append_nl, foundOf]
  · simp only [hA, if_false]
    rw [foundOf, afterNL_of_no_nl hA, neSegs_nil, List.nil_append]

theorem foundOf_of_no_nl {l : List Char} (h : '\n' ∉ l) : foundOf l = [] := by
  rw [foundOf, afterNL_of_no_nl h, neSegs_nil]

theorem dropWhile_head_not {l : List Char} {d : Char} {rest : List Char}
    (h : l.dropWhile notNL = d :: rest) : notNL d = false := by
  induction l with
  | nil => simp [List.dropWhile] at h
  | cons c cs ih =>
    rw [List.dropWhile_cons] at h
    by_cases hc : notNL c = true
    · rw [if_pos hc] at h
      exact ih h
    · rw [if_neg hc] at h
      injection h with h1 _
      rw [← h1]
      exact Bool.not_eq_true _ ▸ hc

/-- Splitting off the part before the first newline: the nonempty segments
of `X ++ l` are those of `X ++ carryOf l` followed by those after the
first newline of `l`. -/
theorem neSegs_append_split (X l : List Char) :
    neSegs (X ++ l) = neSegs (X ++ carryOf l) ++ foundOf l := by
  cases hd : l.dropWhile notNL with
  | nil =>
    have hl : '\n' ∉ l := by
      intro hm
      have := List.dropWhile_eq_nil_iff.mp hd _ hm
      simp [notNL] at this
    rw [carryOf_of_no_nl hl, foundOf_of_no_nl hl, List.append_nil]
  | cons d rest =>
    have hdnl : d = '\n' := notNL_eq_false.mp (dropWhile_head_not hd)
    subst hdnl
    have hdecomp : l = carryOf l ++ '\n' :: rest := by
      conv_lhs => rw [← List.takeWhile_append_dropWhile (p := notNL) (l := l)]
      rw [hd]; rfl
    have hafter : afterNL l = rest := by simp [afterNL, hd]
    rw [foundOf, hafter]
    conv_lhs => rw [hdecomp]
    rw [← List.append_assoc, neSegs_append_nl]

/-! ### Lemmas about `tailN` -/

theorem tailN_of_le {α : Type} {l : List α} {n : Nat} (h : l.length ≤ n) :
    tailN n l = l := by
  simp [tailN, Nat.sub_eq_zero_of_le h]

theorem tailN_append {α : Type} (Y Z : List α) {n : Nat} (h : n ≤ Z.length) :
    tailN n (Y ++ Z) = tailN n Z := by
  have harith : (Y ++ Z).length - n = Y.length + (Z.length - n) := by
    simp only [List.length_append]
    omega
  rw [tailN, harith, List.drop_append, tailN]

/-! ### Characterization of the backward buffer scan -/

/-- What one backward scan of a buffer computes: the nonempty segments
after the first newline of the virtual buffer (buffer ++ pending segment)
are prepended to the accumulated lines; the early return fires exactly
when that reaches `n` lines, keeping the last `n`; otherwise the part
before the first newline is carried. -/
theorem scanRev_eq (n : Nat) (rbuf : List Char) :
    ∀ (seg : List Char) (lines : List (List Char)),
      '\n' ∉ seg → lines.length < n →
      scanRev rbuf seg lines n =
        if n ≤ (foundOf (rbuf.reverse ++ seg)).length + lines.length then
          Sum.inl (tailN n (foundOf (rbuf.reverse ++ seg) ++ lines))
        else
          Sum.inr (foundOf (rbuf.reverse ++ seg) ++ lines,
                   carryOf (rbuf.reverse ++ seg)) := by
  induction rbuf with
  | nil =>
    intro seg lines hseg hlen
    rw [List.reverse_nil, List.nil_append]
    rw [foundOf_of_no_nl hseg, carryOf_of_no_nl hseg]
    simp only [List.length_nil, Nat.zero_add, List.nil_append]
    rw [if_neg (by omega)]
    rfl
  | cons c rest ih =>
    intro seg lines hseg hlen
    by_cases hc : c = '\n'
    · subst hc
      have hkey : ('\n' :: rest).reverse ++ seg =
          rest.reverse ++ '\n' :: seg := by
        simp
      rw [hkey, foundOf_append_nl, carryOf_append_nl]
      cases seg with
      | nil =>
        rw [neSegs_nil, List.append_nil]
        simp only [scanRev, List.isEmpty_nil, if_pos rfl, if_true]
        rw [ih [] lines (by simp) hlen]
        simp
      | cons s0 stail =>
        have hne : neSegs (s0 :: stail) = [s0 :: stail] := by
          rw [neSegs_no_nl hseg]
          simp
        rw [hne]
        simp only [scanRev, List.isEmpty_cons, if_pos rfl, Bool.false_eq_true,
          if_false, if_true]
        have hassoc : (foundOf rest.reverse ++ [s0 :: stail]) ++ lines =
            foundOf rest.reverse ++ ((s0 :: stail) :: lines) := by
          simp
        have hlen2 : (foundOf rest.reverse ++ [s0 :: stail]).length
            + lines.length
            = (foundOf rest.reverse).length + (lines.length + 1) := by
          simp only [List.length_append, List.length_singleton]
          omega
        rw [hassoc, hlen2]
        by_cases hstop : n ≤ lines.length + 1
        · have hn : n = lines.length + 1 := by omega
          have hcond : n ≤ (foundOf rest.reverse).length
              + (lines.length + 1) := by omega
          rw [if_pos hstop, if_pos hcond]
          congr 1
          rw [tailN_append _ ((s0 :: stail) :: lines)
            (by rw [List.length_cons]; omega)]
          rw [tailN_of_le (by rw [List.length_cons]; omega)]
        · rw [if_neg hstop]
          rw [ih [] ((s0 :: stail) :: lines) (by simp)
            (by rw [List.length_cons]; omega)]
          simp only [List.append_nil, List.length_cons]
    · have hkey : (c :: rest).reverse ++ seg =
          rest.reverse ++ (c :: seg) := by
        simp
      have hcseg : '\n' ∉ c :: seg := by
        intro hm
        rcases List.mem_cons.mp hm with h | h
        · exact hc h.symm
        · exact hseg h
      simp only [scanRev, if_neg hc]
      rw [ih (c :: seg) lines hcseg hlen, hkey]

theorem readFinalize_eq {carry : List Char} {lines : List (List Char)}
    {n : Nat} (hcarry : '\n' ∉ carry) (hlen : lines.length < n) :
    readFinalize lines carry n = tailN n (neSegs carry ++ lines) := by
  cases carry with
  | nil =>
    rw [readFinalize, if_neg (by simp)]
    rw [neSegs_nil, List.nil_append, tailN_of_le (by omega)]
  | cons c cs =>
    rw [readFinalize, if_pos (by constructor <;> simp [hlen])]
    have hne : neSegs (c :: cs) = [c :: cs] := by
      rw [neSegs_no_nl hcarry]; simp
    rw [hne, List.singleton_append,
      tailN_of_le (by rw [List.length_cons]; omega)]

/-- What the chunk loop computes, given enough fuel: the last `n` nonempty
segments of the unread prefix of the file (plus the carry), in front of
the already-collected lines. -/
theorem readLoop_eq (content : List Char) (n : Nat) :
    ∀ (fuel offset : Nat) (lines : List (List Char)) (carry : List Char),
      offset ≤ fuel → '\n' ∉ carry → lines.length < n →
      readLoop content fuel offset lines carry n =
        tailN n (neSegs (content.take offset ++ carry) ++ lines) := by
  intro fuel
  induction fuel with
  | zero =>
    intro offset lines carry hfuel hcarry hlen
    have : offset = 0 := by omega
    subst this
    rw [List.take_zero, List.nil_append]
    exact readFinalize_eq hcarry hlen
  | succ fuel ih =>
    intro offset lines carry hfuel hcarry hlen
    by_cases h0 : 0 < offset
    · have hstep : readLoop content (fuel + 1) offset lines carry n =
          match scanRev ((content.drop (offset - min chunkSize offset)).take
              (min chunkSize offset) ++ carry).reverse [] lines n with
          | Sum.inl result => result
          | Sum.inr (lines', carry') =>
            readLoop content fuel (offset - min chunkSize offset)
              lines' carry' n := by
        simp only [readLoop]
        rw [if_pos ⟨h0, hlen⟩]
      set readSize := min chunkSize offset with hrs
      set offset' := offset - readSize with hoff
      set buf : List Char :=
        (content.drop offset').take readSize ++ carry with hbuf
      have hsz : 0 < readSize := by
        rw [hrs]
        have : 0 < chunkSize := by norm_num [chunkSize]
        omega
      have hro : readSize ≤ offset := min_le_right _ _
      have htake : content.take offset ++ carry =
          content.take offset' ++ buf := by
        have hsum : offset' + readSize = offset := by omega
        rw [← hsum, List.take_add, hbuf, List.append_assoc]
      have hsplit : neSegs (content.take offset ++ carry) =
          neSegs (content.take offset' ++ carryOf buf) ++ foundOf buf := by
        rw [htake, neSegs_append_split]
      rw [hstep]
      rw [scanRev_eq n buf.reverse [] lines (by simp) hlen]
      rw [List.reverse_reverse, List.append_nil]
      by_cases hfound : n ≤ (foundOf buf).length + lines.length
      · rw [if_pos hfound]
        rw [hsplit, List.append_assoc]
        rw [tailN_append _ (foundOf buf ++ lines)
          (by rw [List.length_append]; omega)]
      · rw [if_neg hfound]
        have hfuel' : offset' ≤ fuel := by
          rw [hoff]
          omega
        show readLoop content fuel offset'
            (foundOf buf ++ lines) (carryOf buf) n = _
        rw [ih offset' (foundOf buf ++ lines) (carryOf buf)
          hfuel' (carryOf_no_nl buf)
          (by rw [List.length_append]; omega)]
        rw [hsplit, List.append_assoc]
    · have : offset = 0 := by omega
      subst this
      have hstep : readLoop content (fuel + 1) 0 lines carry n =
          readFinalize lines carry n := by
        simp only [readLoop]
        rw [if_neg (by simp)]
      rw [hstep, List.take_zero, List.nil_append]
      exact readFinalize_eq hcarry hlen

/-- The reverse line reader returns exactly the last `n` nonempty
newline-separated segments of the file, in original order. -/
theorem readLastLines_eq (content : List Char) (n : Nat) :
    readLastLines content n = tailN n (neSegs content) := by
  by_cases hc : content.length = 0
  · rw [readLastLines, if_pos hc]
    have hnil : content = [] := List.length_eq_zero.mp hc
    subst hnil
    rw [neSegs_nil]
    simp [tailN]
  · rw [readLastLines, if_neg hc]
    by_cases hn : n = 0
    · subst hn
      cases hcl : content.length with
      | zero => exact absurd hcl hc
      | succ k =>
        have hstep : readLoop content (k + 1) (k + 1) [] [] 0 =
            readFinalize [] [] 0 := by
          simp only [readLoop]
          rw [if_neg (by simp)]
        rw [hstep]
        have hfin : readFinalize ([] : List (List Char)) [] 0 = [] := by
          rw [readFinalize, if_neg (by simp)]
        rw [hfin, tailN, Nat.sub_zero, List.drop_length]
    · rw [readLoop_eq content n content.length content.length [] []
        le_rfl (by simp) (by simp only [List.length_nil]; omega)]
      rw [List.take_length, List.append_nil, List.append_nil]

/-! ## Session tracker lemmas -/

theorem computeTotal_append (l1 l2 : List Interval) :
    computeTotal (l1 ++ l2) = computeTotal l1 + computeTotal l2 := by
  simp [computeTotal]

theorem heartbeat_create (sessionID date : String) (t : Int) :
    heartbeat (createNewSession sessionID date t) t =
      { id := sessionID, date := date, start := t, lastHeartbeat := t,
        totalSeconds := 0,
        intervals := [{ start := t, endT := some t }] } := by
  norm_num [heartbeat, createNewSession, SessionTimeoutSeconds, setLastEnd,
    computeTotal, intervalSeconds]

theorem heartbeat_single_contiguous {s : Session} {a b : Int} (now : Int)
    (h1 : s.intervals = [{ start := a, endT := some b }])
    (h2 : s.lastHeartbeat = b) (hgap : now - b < SessionTimeoutSeconds) :
    heartbeat s now =
      { s with lastHeartbeat := now, totalSeconds := now - a,
               intervals := [{ start := a, endT := some now }] } := by
  rw [heartbeat, h1, h2]
  rw [if_pos hgap]
  simp [setLastEnd, computeTotal, intervalSeconds]

/-- Fold form of the contiguous-heartbeat invariant: a one-interval
session whose heartbeats all arrive within the timeout keeps one
interval, ending at the last heartbeat. -/
theorem foldl_heartbeat_contiguous (ts : List Int) :
    ∀ (s : Session) (a b : Int),
      s.intervals = [{ start := a, endT := some b }] →
      s.lastHeartbeat = b →
      s.totalSeconds = b - a →
      List.Chain (fun x y => y - x < SessionTimeoutSeconds) b ts →
      (ts.foldl heartbeat s).intervals
          = [{ start := a, endT := some (ts.getLastD b) }]
        ∧ (ts.foldl heartbeat s).lastHeartbeat = ts.getLastD b
        ∧ (ts.foldl heartbeat s).totalSeconds = ts.getLastD b - a := by
  induction ts with
  | nil =>
    intro s a b h1 h2 h3 _
    simp only [List.foldl_nil, List.getLastD_nil]
    exact ⟨h1, h2, h3⟩
  | cons t ts ih =>
    intro s a b h1 h2 h3 hchain
    rw [List.chain_cons] at hchain
    obtain ⟨hgap, hchain'⟩ := hchain
    rw [List.foldl_cons, List.getLastD_cons]
    have hb := heartbeat_single_contiguous t h1 h2 hgap
    exact ih (heartbeat s t) a t (by rw [hb]) (by rw [hb]) (by rw [hb])
      hchain'

theorem setLastEnd_all_closed (now : Int) (l : List Interval) :
    l.all (fun i => i.endT.isSome) = true →
    (setLastEnd l now).all (fun i => i.endT.isSome) = true := by
  induction l with
  | nil => intro _; rfl
  | cons i rest ih =>
    intro h
    cases rest with
    | nil => simp [setLastEnd]
    | cons j rest' =>
      simp only [List.all_cons, Bool.and_eq_true] at h
      simp only [setLastEnd, List.all_cons, Bool.and_eq_true]
      refine ⟨h.1, ih ?_⟩
      simp only [List.all_cons, Bool.and_eq_true]
      exact h.2

/-- A heartbeat never produces an open interval when all existing
intervals are closed: extending closes the last interval, a gap appends
an already-closed interval. -/
theorem heartbeat_allClosed {s : Session} (now : Int)
    (h : allClosed s = true) : allClosed (heartbeat s now) = true := by
  rw [allClosed, heartbeat]
  by_cases hgap : now - s.lastHeartbeat < SessionTimeoutSeconds
  · rw [if_pos hgap]
    exact setLastEnd_all_closed now s.intervals h
  · rw [if_neg hgap]
    simp only [List.all_append, Bool.and_eq_true]
    exact ⟨h, by simp⟩

/-- Every in-memory state reachable by the tracker has all intervals
closed: a session is created and heartbeaten with the same timestamp, so
its single interval closes immediately, and heartbeats preserve
closedness. -/
theorem tracked_allClosed (s : Session) (h : TrackedSession s) :
    allClosed s = true := by
  induction h with
  | start sessionID date t =>
    rw [heartbeat_create]
    rfl
  | hb now _ ih => exact heartbeat_allClosed now ih

/-! ## Claim theorems: session tracker -/

/-- C4: for a sequence of heartbeats on one session whose gaps all stay
below the 600 s timeout, after the k-th heartbeat the session has a
single interval from the start time to the last heartbeat and
`total_seconds` equals `last_heartbeat - start`. -/
theorem claim4_contiguous_heartbeats_total (sessionID date : String)
    (t0 : Int) (ts : List Int)
    (h : List.Chain (fun x y => y - x < SessionTimeoutSeconds) t0 ts) :
    (trackSession sessionID date t0 ts).totalSeconds = ts.getLastD t0 - t0
    ∧ (trackSession sessionID date t0 ts).lastHeartbeat = ts.getLastD t0
    ∧ (trackSession sessionID date t0 ts).start = t0
    ∧ (trackSession sessionID date t0 ts).intervals
        = [{ start := t0, endT := some (ts.getLastD t0) }] := by
  have hbase := heartbeat_create sessionID date t0
  have hmain := foldl_heartbeat_contiguous ts
    (heartbeat (createNewSession sessionID date t0) t0) t0 t0
    (by rw [hbase]) (by rw [hbase]) (by rw [hbase]; ring) h
  have hstart : (trackSession sessionID date t0 ts).start = t0 := by
    rw [trackSession]
    have : ∀ (l : List Int) (s : Session),
        (l.foldl heartbeat s).start = s.start := by
      intro l
      induction l with
      | nil => intro s; rfl
      | cons x l ih =>
        intro s
        rw [List.foldl_cons, ih]
        rfl
    rw [this, hbase]
  exact ⟨hmain.2.2, hmain.2.1, hstart, hmain.1⟩

/-- Witness for C4, the spec example: heartbeats at t = 0, 5, 10 with
timeout 600 give one interval from 0 to 10 and a total of 10 seconds. -/
theorem claim4_witness :
    (trackSession "s" "2026-01-01" 0 [5, 10]).totalSeconds = 10
    ∧ (trackSession "s" "2026-01-01" 0 [5, 10]).lastHeartbeat = 10
    ∧ (trackSession "s" "2026-01-01" 0 [5, 10]).intervals
        = [{ start := 0, endT := some 10 }] := by
  have h := claim4_contiguous_heartbeats_total "s" "2026-01-01" 0 [5, 10]
    (List.Chain.cons (by decide) (List.Chain.cons (by decide) List.Chain.nil))
  refine ⟨?_, ?_, ?_⟩
  · rw [h.1]; rfl
  · rw [h.2.1]; rfl
  · rw [h.2.2.2]; rfl

/-- C5: a heartbeat arriving after a gap of at least the timeout appends
the closed interval `{start := now, end := now}` instead of extending the
previous one, so the idle gap contributes nothing to `total_seconds`: the
new total is just the sum over the previously closed intervals. -/
theorem claim5_gap_new_interval (s : Session) (now : Int)
    (h : SessionTimeoutSeconds ≤ now - s.lastHeartbeat) :
    (heartbeat s now).intervals
        = s.intervals ++ [{ start := now, endT := some now }]
    ∧ (heartbeat s now).totalSeconds = computeTotal s.intervals
    ∧ (heartbeat s now).lastHeartbeat = now := by
  have hnot : ¬(now - s.lastHeartbeat < SessionTimeoutSeconds) :=
    not_lt.mpr h
  refine ⟨by rw [heartbeat, if_neg hnot], ?_, by rw [heartbeat]⟩
  show computeTotal (if now - s.lastHeartbeat < SessionTimeoutSeconds
      then setLastEnd s.intervals now
      else s.intervals ++ [{ start := now, endT := some now }])
    = computeTotal s.intervals
  rw [if_neg hnot, computeTotal_append]
  simp [computeTotal, intervalSeconds]

/-- Witness for C5, the spec example: heartbeats at t = 0 and t = 1000
with timeout 600 give two intervals and total 0. -/
theorem claim5_witness :
    ((heartbeat (trackSession "s" "2026-01-01" 0 []) 1000).intervals
        = (trackSession "s" "2026-01-01" 0 []).intervals
          ++ [{ start := 1000, endT := some 1000 }]
      ∧ (heartbeat (trackSession "s" "2026-01-01" 0 []) 1000).totalSeconds
        = computeTotal (trackSession "s" "2026-01-01" 0 []).intervals
      ∧ (heartbeat (trackSession "s" "2026-01-01" 0 []) 1000).lastHeartbeat
        = 1000)
    ∧ (heartbeat (trackSession "s" "2026-01-01" 0 []) 1000).intervals
        = [{ start := 0, endT := some 0 },
           { start := 1000, endT := some 1000 }]
    ∧ (heartbeat (trackSession "s" "2026-01-01" 0 []) 1000).totalSeconds
        = 0 :=
  ⟨claim5_gap_new_interval (trackSession "s" "2026-01-01" 0 []) 1000
      (by decide),
   by decide, by decide⟩

/-- C6: every session record the tracker hands to `writeSessionToDisk`
has all intervals closed, provided the states it starts from are its own
(a fresh session, a cached state of its own making, or a file it wrote
itself, reloaded losslessly). -/
theorem claim6_persisted_intervals_closed (file : DiskFile)
    (cached : Option CacheEntry) (sessionID date : String) (now : Int)
    (hfile : ∀ s, file = DiskFile.valid s → TrackedSession s)
    (hcache : ∀ e, cached = some e → TrackedSession e.session) :
    ((updateSession file cached sessionID date now).written.all allClosed)
      = true := by
  simp only [updateSession]
  cases cached with
  | some e =>
    have htr : TrackedSession (heartbeat e.session now) :=
      TrackedSession.hb now (hcache e rfl)
    have hac := tracked_allClosed _ htr
    dsimp only
    split
    · simpa using hac
    · rfl
  | none =>
    cases file with
    | valid s =>
      have htr : TrackedSession (heartbeat s now) :=
        TrackedSession.hb now (hfile s rfl)
      have hac := tracked_allClosed _ htr
      dsimp only
      split
      · simpa using hac
      · rfl
    | missing =>
      have hac := tracked_allClosed _ (TrackedSession.start sessionID date now)
      dsimp only
      split
      · simpa using hac
      · rfl
    | corrupt =>
      have hac := tracked_allClosed _ (TrackedSession.start sessionID date now)
      dsimp only
      split
      · simpa using hac
      · rfl

/-- Witness for C6: an update on a cached session whose last write is old
enough actually writes, and the written record has all intervals closed. -/
theorem claim6_witness :
    ((updateSession DiskFile.missing
        (some { session := trackSession "s" "2026-01-01" 0 [],
                lastWrite := 0, dirty := false })
        "s" "2026-01-01" 10).written.all allClosed) = true :=
  claim6_persisted_intervals_closed DiskFile.missing
    (some { session := trackSession "s" "2026-01-01" 0 [],
            lastWrite := 0, dirty := false })
    "s" "2026-01-01" 10
    (fun s h => nomatch h)
    (fun e h => by
      cases h
      exact TrackedSession.start "s" "2026-01-01" 0)

/-- C1 (code behavior at the failing input): when no cache entry exists
for the session id — in particular on the very first update of a fresh
process, where no disk write has yet occurred — `updateSession` never
writes, because the fresh entry's `lastWrite` is initialized to the
current time and the debounce check `time.Since(entry.lastWrite) >=
sessionWriteDebounce` therefore fails. -/
theorem claim1_first_update_never_persists (file : DiskFile)
    (sessionID date : String) (now : Int) :
    (updateSession file none sessionID date now).written = none := by
  simp only [updateSession]
  have h2 : ¬(sessionWriteDebounce ≤ now - now) := by
    rw [sub_self, sessionWriteDebounce]
    norm_num
  cases file <;> · dsimp only; rw [if_neg h2]

/-- C9: a corrupt session file is handled exactly like a missing one —
`updateSession` silently reinitializes a fresh record and every observable
outcome (cache entry and written record) coincides; the model is total,
so no failure is ever surfaced. -/
theorem claim9_corrupt_equals_missing (cached : Option CacheEntry)
    (sessionID date : String) (now : Int) :
    updateSession DiskFile.corrupt cached sessionID date now
      = updateSession DiskFile.missing cached sessionID date now := by
  cases cached <;> rfl

/-! ## Claim theorems: reverse line reader -/

/-- C2 counterexample: the file "a\n\nb" has the three newline-delimited
lines "a", "", "b", yet `readLastLines` with room for 10 lines returns
only ["a", "b"] — the blank line is omitted, so the reader does not
return "all lines" of a short file. -/
theorem claim2_counterexample :
    readLastLines ['a', '\n', '\n', 'b'] 10 = [['a'], ['b']]
    ∧ claimFileLines ['a', '\n', '\n', 'b'] = [['a'], [], ['b']]
    ∧ readLastLines ['a', '\n', '\n', 'b'] 10
        ≠ claimFileLines ['a', '\n', '\n', 'b'] :=
  ⟨by decide, by decide, by decide⟩

/-- C2 (amended): for every file content and maximum line count `n`, the
reverse line reader returns the last `n` *nonempty* newline-delimited
lines in original order — an empty sequence for an empty file, all
nonempty lines when there are fewer than `n` of them, and exactly the
last `n` nonempty lines otherwise. -/
theorem claim2_amended_readLastLines (content : List Char) (n : Nat) :
    readLastLines content n
      = tailN n ((splitNL content).filter (fun s => !s.isEmpty)) :=
  readLastLines_eq content n

/-- C10: the reverse line reader never returns an empty-string element:
a blank line (two consecutive newlines) is omitted rather than returned. -/
theorem claim10_no_empty_lines (content : List Char) (n : Nat) :
    (readLastLines content n).all (fun l => !l.isEmpty) = true := by
  rw [readLastLines_eq, List.all_eq_true]
  intro l hl
  rw [tailN] at hl
  have hmem : l ∈ neSegs content := List.mem_of_mem_drop hl
  exact (List.mem_filter.mp hmem).2

/-- C3 counterexample: the newest record carries a usage object whose sum
is 0; the claim says the scan returns that sum (0) immediately, but the
code only returns on a positive sum and keeps scanning, returning 100
from the older record. -/
theorem claim3_counterexample :
    calculateContextUsage [ctxDemoOld, ctxDemoNew] = 100
    ∧ calculateContextUsageClaim [ctxDemoOld, ctxDemoNew] = 0
    ∧ calculateContextUsage [ctxDemoOld, ctxDemoNew]
        ≠ calculateContextUsageClaim [ctxDemoOld, ctxDemoNew] :=
  ⟨by decide, by decide, by decide⟩

theorem ctxScan_eq_findSome (l : List TLine) :
    ctxScan l = (l.findSome? usableTotal).getD 0 := by
  induction l with
  | nil => rfl
  | cons hd tl ih =>
    cases hd with
    | blank => simpa [ctxScan, usableTotal, List.findSome?_cons] using ih
    | malformed => simpa [ctxScan, usableTotal, List.findSome?_cons] using ih
    | record r =>
      rw [List.findSome?_cons]
      cases hs : r.isSidechain.getD false with
      | true => simp [ctxScan, usableTotal, hs, ih]
      | false =>
        cases hm : r.message with
        | none => simp [ctxScan, usableTotal, hs, hm, ih]
        | some m =>
          cases hu : m.usage with
          | none => simp [ctxScan, usableTotal, hs, hm, hu, ih]
          | some u =>
            by_cases hp : 0 < sumUsage u
            · simp [ctxScan, usableTotal, hs, hm, hu, hp]
            · simp [ctxScan, usableTotal, hs, hm, hu, hp, ih]

/-- C3 (amended): the context analyzer scans the last 100 lines
newest-to-oldest and returns the usage sum of the first line that is a
non-side-chain record with a usage object whose sum is *positive*; lines
whose usage sum is zero or negative are skipped like non-qualifying
lines, and if no qualifying line exists in the window the result is 0. -/
theorem claim3_amended_contextUsage (transcript : List TLine) :
    calculateContextUsage transcript
      = (((tailN MaxTranscriptLines transcript).reverse.findSome?
          usableTotal).getD 0) :=
  ctxScan_eq_findSome _

/-! ## Claim theorems: percentage computation -/

/-- C8 counterexample: for 3999 tokens the exact ratio is 1.9995 %, the
claimed rounding gives 2, but the code truncates to 1. -/
theorem claim8_counterexample :
    analyzePercentage 3999 = 1
    ∧ analyzePercentageClaim 3999 = 2
    ∧ (analyzePercentage 3999 : Int) ≠ analyzePercentageClaim 3999 := by
  have h1 : analyzePercentage 3999 = 1 := by decide
  have h2 : analyzePercentageClaim 3999 = 2 := by
    norm_num [analyzePercentageClaim, MaxContextTokens, round_eq]
  refine ⟨h1, h2, ?_⟩
  rw [h1, h2]
  norm_num

/-- C8 (amended): the displayed percentage is
`min(100, floor(100 * tokens / max_tokens))` — truncating division, not
rounding. -/
theorem claim8_amended_percentage (t : Nat) :
    (analyzePercentage t : Int)
      = min 100 ⌊(t : ℚ) * 100 / (MaxContextTokens : ℚ)⌋ := by
  have hpos : (0 : ℚ) < (MaxContextTokens : ℚ) := by
    norm_num [MaxContextTokens]
  have hfloor : ⌊(t : ℚ) * 100 / (MaxContextTokens : ℚ)⌋
      = ((t * 100 / MaxContextTokens : ℕ) : ℤ) := by
    rw [Int.floor_eq_iff]
    constructor
    · rw [le_div_iff₀ hpos]
      push_cast
      exact_mod_cast Nat.cast_le.mpr (Nat.div_mul_le_self (t * 100)
        MaxContextTokens)
    · rw [div_lt_iff₀ hpos]
      have hnat : t * 100 < (t * 100 / MaxContextTokens + 1)
          * MaxContextTokens := by
        simp only [MaxContextTokens]
        omega
      push_cast
      exact_mod_cast hnat
  rw [hfloor]
  simp only [analyzePercentage]
  by_cases h : 100 < t * 100 / MaxContextTokens
  · rw [if_pos h]
    have : min (100 : Int) ((t * 100 / MaxContextTokens : ℕ) : ℤ)
        = 100 := by
      rw [min_eq_left]
      exact_mod_cast Nat.le_of_lt h
    rw [this]
    rfl
  · rw [if_neg h]
    rw [min_eq_right (by exact_mod_cast Nat.not_lt.mp h)]

/-! ## Claim theorems: user message extractor -/

theorem userScan_eq_findSome (sessionID : String) (l : List TLine) :
    userScan sessionID l
      = (((l.findSome? (userCandidate sessionID)).map
          formatUserMessage).getD "") := by
  induction l with
  | nil => rfl
  | cons hd tl ih =>
    cases hd with
    | blank => simpa [userScan, userCandidate, List.findSome?_cons] using ih
    | malformed =>
      simpa [userScan, userCandidate, List.findSome?_cons] using ih
    | record r =>
      rw [List.findSome?_cons]
      by_cases h1 : r.isSidechain.getD false = false
          ∧ r.sessionId = some sessionID
      · cases hm : r.message with
        | none => simp [userScan, userCandidate, h1, hm, ih]
        | some m =>
          by_cases h2 : m.role.getD "" = "user" ∧ r.rtype.getD "" = "user"
          · cases hc : m.content with
            | none => simp [userScan, userCandidate, h1, hm, h2, hc, ih]
            | some content =>
              by_cases h3 : isSystemMessage content
              · simp [userScan, userCandidate, h1, hm, h2, hc, h3, ih]
              · simp [userScan, userCandidate, h1, hm, h2, hc, h3]
          · simp [userScan, userCandidate, h1, hm, h2, ih]
      · simp [userScan, userCandidate, h1, ih]

/-- C7: the user message extractor scans the last 200 transcript lines
newest-to-oldest and returns the formatted content of the first record
that is simultaneously: not a side chain, of the current session, of type
"user" with message role "user", with string content, and whose content
is not classified as a system message (which excludes JSON payloads,
tool-output tags such as bash-stdout markers, and caveat notices); if no
record qualifies the result is the empty string. -/
theorem claim7_user_message_extraction (transcript : List TLine)
    (sessionID : String) :
    extractUserMessage transcript sessionID
      = ((((tailN MaxUserSearchLines transcript).reverse.findSome?
          (userCandidate sessionID)).map formatUserMessage).getD "") :=
  userScan_eq_findSome sessionID _


end Statusline
